import Mathlib

/-!
Verification of the FAB spending chart engine (`js/fabSpendingView.js`).

The JavaScript module is shallowly embedded: JS numbers are modelled as
rationals (`ℚ`), fallible/absent fields as `Option`, and the JS object
`timelines` (whose integer-like keys are iterated in ascending numeric
order by `Object.values`) as an association list kept sorted by key.
`Array.prototype.sort` (stable since ES2019) with a consistent numeric
comparator is modelled as sorting the index-tagged list by
(comparator key, original index).
-/

namespace FabChart

/-- One point of a team's FAB timeline:
`{ week, weekProgress, fab, timestamp }` (js/fabSpendingView.js:172,203). -/
structure TPoint where
  week : ℚ
  weekProgress : ℚ
  fab : ℚ
  timestamp : ℚ
deriving Repr, DecidableEq

/-- The roster fields read by the module: `roster_id`,
`settings.waiver_budget_used` (absent modelled as `none`), and
`settings.eliminated` (field present iff `hasOwnProperty` is true). -/
structure Roster where
  roster_id : ℕ
  waiver_budget_used : Option ℚ
  eliminated : Option ℚ
deriving Repr, DecidableEq

/-- The transaction fields read by the module: `_week` (attached by the
fetch loop), `status`, `type`, `status_updated`, `created`,
`roster_ids`, and `settings.waiver_bid`. -/
structure Tx where
  week : ℚ
  status : String
  type : String
  status_updated : Option ℚ
  created : Option ℚ
  roster_ids : List ℕ
  waiver_bid : Option ℚ
deriving Repr, DecidableEq

/-- A team timeline as built by `computeFABTimeline`.  The display-only
string fields (team name, avatar, initials) are omitted: no property in
scope depends on them. -/
structure Timeline where
  rosterId : ℕ
  leagueId : String
  isEliminated : Bool
  eliminatedWeek : Option ℚ
  currentFab : ℚ
  points : List TPoint
deriving Repr, DecidableEq

/-- JS `a || d` on an optional number: falsy (absent or `0`) falls
through to the default. -/
def jsOrQ : Option ℚ → ℚ → ℚ
  | none, d => d
  | some v, d => if v = 0 then d else v

/-- Default point standing for the JS `undefined` that would surface if
a timeline's `points` array were empty (it never is by construction). -/
def dfltPoint : TPoint := ⟨0, 0, 0, 0⟩

/-- `Math.abs`, kept kernel-computable. -/
def absQ (x : ℚ) : ℚ := if x < 0 then -x else x

/-! ## Stable sort (model of `Array.prototype.sort` with a consistent
numeric comparator) -/

/-- Order on index-tagged elements: by comparator key first, original
position on ties.  Sorting by this relation is exactly what a stable
sort by the key produces. -/
def sRel {α : Type} {K : Type} [LinearOrder K] (key : α → K) (p q : ℕ × α) : Prop :=
  key p.2 < key q.2 ∨ (key p.2 = key q.2 ∧ p.1 ≤ q.1)

instance sRelDecidable {α K : Type} [LinearOrder K] (key : α → K) :
    DecidableRel (sRel key) := fun p q => by
  unfold sRel; infer_instance

instance sRelTotal {α K : Type} [LinearOrder K] (key : α → K) :
    IsTotal (ℕ × α) (sRel key) where
  total p q := by
    rcases lt_trichotomy (key p.2) (key q.2) with h | h | h
    · exact Or.inl (Or.inl h)
    · rcases Nat.le_total p.1 q.1 with h' | h'
      · exact Or.inl (Or.inr ⟨h, h'⟩)
      · exact Or.inr (Or.inr ⟨h.symm, h'⟩)
    · exact Or.inr (Or.inl h)

instance sRelTrans {α K : Type} [LinearOrder K] (key : α → K) :
    IsTrans (ℕ × α) (sRel key) where
  trans p q s hpq hqs := by
    rcases hpq with h1 | ⟨h1, h1'⟩
    · rcases hqs with h2 | ⟨h2, _⟩
      · exact Or.inl (h1.trans h2)
      · exact Or.inl (h2 ▸ h1)
    · rcases hqs with h2 | ⟨h2, h2'⟩
      · exact Or.inl (h1 ▸ h2)
      · exact Or.inr ⟨h1.trans h2, h1'.trans h2'⟩

/-- Stable sort by a key: tag with original indices, sort by
(key, index), drop the tags. -/
def stableSortBy {α K : Type} [LinearOrder K] (key : α → K) (l : List α) : List α :=
  ((l.enum).insertionSort (sRel key)).map Prod.snd

/-! ## Timeline reconstructor (`computeFABTimeline`, lines 149-223) -/

/-- `1694649600000`: the hard-coded approximate season start epoch. -/
def seasonStartMs : ℚ := 1694649600000

/-- One week in milliseconds (`7 * 24 * 60 * 60 * 1000`). -/
def weekDurationMs : ℚ := 604800000

/-- `tx.status_updated || tx.created || 0` (line 189). -/
def txTimestamp (tx : Tx) : ℚ := jsOrQ tx.status_updated (jsOrQ tx.created 0)

/-- Key of the transaction comparator (lines 179-182): `_week` primary,
`status_updated || 0` secondary. -/
def txSortKey (tx : Tx) : ℚ ×ₗ ℚ := toLex (tx.week, tx.status_updated.getD 0)

/-- `Number((tx.settings && tx.settings.waiver_bid) || 0)` (line 188). -/
def txBid (tx : Tx) : ℚ := tx.waiver_bid.getD 0

/-- Week progress of a transaction (lines 199-201): timestamp mapped
into the fixed week window, clamped to [0,1]. -/
def txWeekProgress (tx : Tx) : ℚ :=
  let weekStartMs := seasonStartMs + (tx.week - 1) * weekDurationMs
  max 0 (min 1 ((txTimestamp tx - weekStartMs) / weekDurationMs))

/-- The point appended for a transaction (lines 203-208). -/
def txPoint (tx : Tx) (newFab : ℚ) : TPoint :=
  ⟨tx.week, txWeekProgress tx, newFab, txTimestamp tx⟩

/-- Lines 177-182: keep `complete` `waiver` transactions, sort by
`(week, status_updated || 0)` ascending (stable). -/
def sortedTxOf (transactions : List Tx) : List Tx :=
  stableSortBy txSortKey
    (transactions.filter (fun tx => tx.status == "complete" && tx.type == "waiver"))

/-- A roster's initial timeline (lines 158-174). -/
def initTimeline (leagueId : String) (waiverCap : ℚ) (r : Roster) : Timeline :=
  let usedFab := r.waiver_budget_used.getD 0
  { rosterId := r.roster_id
    leagueId := leagueId
    isEliminated := r.eliminated.isSome
    eliminatedWeek := none
    currentFab := waiverCap - usedFab
    points := [⟨0, 0, waiverCap, 0⟩] }

/-- Insert/overwrite a key of the JS `timelines` object, keeping the
association list sorted by key (integer keys iterate ascending). -/
def insertTimeline : List (ℕ × Timeline) → ℕ → Timeline → List (ℕ × Timeline)
  | [], k, v => [(k, v)]
  | (k', v') :: rest, k, v =>
    if k < k' then (k, v) :: (k', v') :: rest
    else if k = k' then (k, v) :: rest
    else (k', v') :: insertTimeline rest k v

/-- `timelines[rosterId]` lookup. -/
def lookupTL : List (ℕ × Timeline) → ℕ → Option Timeline
  | [], _ => none
  | (k, v) :: rest, r => if k = r then some v else lookupTL rest r

/-- Overwrite the value stored at an existing key. -/
def updateTL : List (ℕ × Timeline) → ℕ → Timeline → List (ℕ × Timeline)
  | [], _, _ => []
  | (k, v) :: rest, r, nv => if k = r then (k, nv) :: rest else (k, v) :: updateTL rest r nv

/-- Processing of one sorted transaction (lines 184-209): skip when
`roster_ids` is missing/empty, attribute the bid to the first entry,
skip unknown rosters, append the new point. -/
def applyTx (m : List (ℕ × Timeline)) (tx : Tx) : List (ℕ × Timeline) :=
  match tx.roster_ids with
  | [] => m
  | rosterId :: _ =>
    match lookupTL m rosterId with
    | none => m
    | some timeline =>
      let lastPoint := timeline.points.getLastD dfltPoint
      let newFab := lastPoint.fab - txBid tx
      updateTL m rosterId { timeline with points := timeline.points ++ [txPoint tx newFab] }

/-- Post-processing (lines 212-220): attach the elimination week from
roster state when the roster's `settings.eliminated` is truthy. -/
def fillEliminatedWeek (rosters : List Roster) (tl : Timeline) : Timeline :=
  if tl.isEliminated then
    match rosters.find? (fun r => r.roster_id == tl.rosterId) with
    | some r =>
      match r.eliminated with
      | some v => if v ≠ 0 then { tl with eliminatedWeek := some v } else tl
      | none => tl
    | none => tl
  else tl

/-- `computeFABTimeline` (lines 149-223): initialize a timeline per
roster at full cap, fold the sorted complete waiver transactions, fill
elimination weeks, return `Object.values` (ascending roster id). -/
def computeFABTimeline (leagueId : String) (waiverBudget : Option ℚ)
    (rosters : List Roster) (transactions : List Tx) : List Timeline :=
  let waiverCap := waiverBudget.getD 0
  let start := rosters.foldl
    (fun m r => insertTimeline m r.roster_id (initTimeline leagueId waiverCap r)) []
  let final := (sortedTxOf transactions).foldl applyTx start
  final.map (fun kv => fillEliminatedWeek rosters kv.2)

/-- A transaction is attributed to a roster iff that roster is the
first entry of its `roster_ids`. -/
def attributedTo (rid : ℕ) (tx : Tx) : Bool := tx.roster_ids.head? == some rid

/-- Non-decreasing in time: both the time position
(`week + weekProgress`) and the timestamp advance. -/
def timeOrdered (p q : TPoint) : Prop :=
  p.week + p.weekProgress ≤ q.week + q.weekProgress ∧ p.timestamp ≤ q.timestamp

/-- A transaction whose `_week` is a natural number and whose
`status_updated` timestamp is present and falls inside its week's
window — the data shape the upstream fetcher produces. -/
def WeekConsistent (tx : Tx) : Prop :=
  (∃ n : ℕ, tx.week = (n : ℚ)) ∧
  ∃ v : ℚ, tx.status_updated = some v ∧
    seasonStartMs + (tx.week - 1) * weekDurationMs ≤ v ∧
    v < seasonStartMs + tx.week * weekDurationMs

/-- The `timelines` association list has strictly ascending keys (the
iteration order of integer-keyed JS object properties). -/
def keysSorted (m : List (ℕ × Timeline)) : Prop :=
  m.Pairwise (fun a b => a.1 < b.1)

/-! ## Render pass: visible points and extend-to-horizon
(`renderChart`, lines 444-563) -/

/-- The interpolated partial point at the truncation boundary
(lines 463-476). -/
def interpPoint (prevPoint point : TPoint) (targetWeek : ℚ) : TPoint :=
  let prevWeek := prevPoint.week + prevPoint.weekProgress
  let pointWeek := point.week + point.weekProgress
  let weekDiff := pointWeek - prevWeek
  let fabDiff := point.fab - prevPoint.fab
  let progress := (targetWeek - prevWeek) / weekDiff
  ⟨(Rat.floor targetWeek : ℚ), targetWeek - (Rat.floor targetWeek : ℚ),
    prevPoint.fab + fabDiff * progress, prevPoint.timestamp⟩

/-- The truncation loop of the first pass (lines 455-479), carrying the
previous point for boundary interpolation. -/
def truncVisible (targetWeek : ℚ) : Option TPoint → List TPoint → List TPoint
  | _, [] => []
  | prev, point :: rest =>
    if point.week + point.weekProgress ≤ targetWeek then
      point :: truncVisible targetWeek (some point) rest
    else
      match prev with
      | none => []
      | some prevPoint => [interpPoint prevPoint point targetWeek]

/-- The visible points of a timeline at a given animation progress
(lines 449-484): full points at progress 1, otherwise truncation to the
target week with the first-point fallback. -/
def visiblePointsAt (maxWeek progress : ℚ) (points : List TPoint) : List TPoint :=
  if progress < 1 then
    let targetWeek := maxWeek * progress
    let v := truncVisible targetWeek none points
    if v.isEmpty && !points.isEmpty then points.take 1 else v
  else points

/-- JS truthiness of an optional number (`timeline.eliminatedWeek &&`). -/
def truthyOptQ : Option ℚ → Bool
  | none => false
  | some v => v != 0

/-- The second-pass extension (lines 511-542): at full progress an
eliminated team is truncated/extended to its elimination week, others
are extended flat to `maxPosition`. -/
def extendVisiblePoints (animationProgress maxPosition : ℚ) (timeline : Timeline)
    (visiblePoints : List TPoint) : List TPoint :=
  if animationProgress = 1 ∧ visiblePoints ≠ [] then
    let lastVisible := visiblePoints.getLastD dfltPoint
    if timeline.isEliminated ∧ truthyOptQ timeline.eliminatedWeek then
      let eliminatedWeek := timeline.eliminatedWeek.getD 0
      let filtered := visiblePoints.filter (fun p => decide (p.week ≤ eliminatedWeek))
      if filtered ≠ [] then
        let lastFiltered := filtered.getLastD dfltPoint
        if lastFiltered.week < eliminatedWeek then
          filtered ++ [⟨eliminatedWeek, 0, lastFiltered.fab, lastFiltered.timestamp⟩]
        else filtered
      else filtered
    else
      let lastPosition := lastVisible.week + lastVisible.weekProgress
      if lastPosition < maxPosition then
        visiblePoints ++ [⟨(Rat.floor maxPosition : ℚ),
          maxPosition - (Rat.floor maxPosition : ℚ),
          lastVisible.fab, lastVisible.timestamp⟩]
      else visiblePoints
  else visiblePoints

/-- A timeline's rendered point list at a given progress and horizon:
first pass (truncation) composed with second pass (extension). -/
def renderedPoints (maxWeek animationProgress maxPosition : ℚ) (timeline : Timeline) :
    List TPoint :=
  extendVisiblePoints animationProgress maxPosition timeline
    (visiblePointsAt maxWeek animationProgress timeline.points)

/-! ## Declutter (jitter) pass (lines 584-604) -/

/-- A 2-D endpoint candidate of the jitter pass. -/
structure AvatarPos where
  x : ℚ
  y : ℚ
deriving Repr, DecidableEq

def JITTER_THRESHOLD : ℚ := 5

def JITTER_OFFSET : ℚ := 7

/-- One comparison of the inner loop (lines 591-599): accumulate the
fixed offsets when both axis distances to the earlier candidate's
already-offset position are below the threshold. -/
def jitterStep (pos : AvatarPos) (acc : ℚ × ℚ) (other : AvatarPos × ℚ × ℚ) : ℚ × ℚ :=
  if absQ (pos.x - (other.1.x + other.2.1)) < JITTER_THRESHOLD ∧
      absQ (pos.y - (other.1.y + other.2.2)) < JITTER_THRESHOLD then
    (acc.1 + JITTER_OFFSET * (1 / 2), acc.2 + JITTER_OFFSET)
  else acc

/-- The inner loop (lines 590-600): offsets accumulated for one
candidate against every earlier candidate. -/
def jitterAccum (earlier : List (AvatarPos × ℚ × ℚ)) (pos : AvatarPos) : ℚ × ℚ :=
  earlier.foldl (jitterStep pos) (0, 0)

/-- The condition under which the jitter pass displaces a candidate
against an earlier processed candidate. -/
def jitterConflict (other : AvatarPos × ℚ × ℚ) (pos : AvatarPos) : Prop :=
  absQ (pos.x - (other.1.x + other.2.1)) < JITTER_THRESHOLD ∧
  absQ (pos.y - (other.1.y + other.2.2)) < JITTER_THRESHOLD

instance jitterConflictDecidable (other : AvatarPos × ℚ × ℚ) (pos : AvatarPos) :
    Decidable (jitterConflict other pos) := by
  unfold jitterConflict; infer_instance

/-- The outer loop (lines 587-604): each candidate in order, paired with
its computed (xOffset, yOffset). -/
def jitterProcess (cands : List AvatarPos) : List (AvatarPos × ℚ × ℚ) :=
  cands.foldl (fun done pos => done ++ [(pos, jitterAccum done pos)]) []

/-- Per-candidate (xOffset, yOffset) of the declutter pass. -/
def computeJitter (cands : List AvatarPos) : List (ℚ × ℚ) :=
  (jitterProcess cands).map Prod.snd

/-! ## Curve builder (`createSmoothPath`, lines 278-320) -/

/-- A point handed to the curve builder, optionally carrying the
`_overrideX`/`_overrideY` decluttered endpoint coordinates. -/
structure RPoint where
  point : TPoint
  overrideX : Option ℚ
  overrideY : Option ℚ
deriving Repr, DecidableEq

/-- A vector-path primitive (`M` or `C` command). -/
inductive PathCmd
  | move (x y : ℚ)
  | curve (cp1x cp1y cp2x cp2y x y : ℚ)
deriving Repr, DecidableEq

/-- Control-point tension for one segment (line 308):
`Math.max(0.3, Math.min(0.6, 1 - fabDrop / 200))`. -/
def tension (fabDrop : ℚ) : ℚ := max (3 / 10) (min (3 / 5) (1 - fabDrop / 200))

/-- The cubic segments of the path loop (lines 288-317) for indices
`i ≥ 1`, carrying the previous point; overrides apply to the last point
only. -/
def smoothSegs (xScale yScale : ℚ → ℚ) : RPoint → List RPoint → List PathCmd
  | _, [] => []
  | prevPoint, point :: rest =>
    let isLastPoint := rest.isEmpty
    let sx := xScale (point.point.week + point.point.weekProgress)
    let sy := yScale point.point.fab
    let x := if isLastPoint then point.overrideX.getD sx else sx
    let y := if isLastPoint then point.overrideY.getD sy else sy
    let prevX := xScale (prevPoint.point.week + prevPoint.point.weekProgress)
    let prevY := yScale prevPoint.point.fab
    let fabDrop := absQ (point.point.fab - prevPoint.point.fab)
    let t := tension fabDrop
    let cp1x := prevX + (x - prevX) * t
    let cp1y := prevY + (y - prevY) * (1 / 10)
    let cp2x := prevX + (x - prevX) * (1 - t)
    let cp2y := prevY + (y - prevY) * (9 / 10)
    PathCmd.curve cp1x cp1y cp2x cp2y x y :: smoothSegs xScale yScale point rest

/-- `createSmoothPath` (lines 278-320): empty input gives an empty
path, one point a single move-to (with override), otherwise a move-to
followed by cubic segments. -/
def createSmoothPath (points : List RPoint) (xScale yScale : ℚ → ℚ) : List PathCmd :=
  match points with
  | [] => []
  | [point] =>
    [PathCmd.move (point.overrideX.getD (xScale (point.point.week + point.point.weekProgress)))
      (point.overrideY.getD (yScale point.point.fab))]
  | first :: rest =>
    PathCmd.move (xScale (first.point.week + first.point.weekProgress))
        (yScale first.point.fab)
      :: smoothSegs xScale yScale first rest

/-! ## View filter (`filterTimelinesForView`, lines 856-879) -/

/-- Value used as the sort key: the last point's `fab`. -/
def lastFabOf (t : Timeline) : ℚ := (t.points.getLastD dfltPoint).fab

/-- The two sequential filter stages of `filterTimelinesForView`
(lines 862-871): league filter then team-status filter. -/
def viewFiltered (currentFilter currentTeamStatusFilter : String)
    (all : List Timeline) : List Timeline :=
  let arr1 :=
    if currentFilter ≠ "both" then all.filter (fun t => t.leagueId == currentFilter)
    else all
  if currentTeamStatusFilter = "remaining" then arr1.filter (fun t => !t.isEliminated)
  else if currentTeamStatusFilter = "chopped" then arr1.filter (fun t => t.isEliminated)
  else arr1

/-- `filterTimelinesForView`: league filter, then team-status filter,
then a stable sort by current FAB descending (comparator
`bFab - aFab`, modelled as ascending key `-lastFab`). -/
def filterTimelinesForView (currentFilter currentTeamStatusFilter : String)
    (all : List Timeline) : List Timeline :=
  if all.isEmpty then []
  else stableSortBy (fun t => -lastFabOf t)
    (viewFiltered currentFilter currentTeamStatusFilter all)

/-- The league-scope predicate of the spec: `both` passes everything,
otherwise the league must match. -/
def leagueOk (currentFilter : String) (t : Timeline) : Bool :=
  currentFilter == "both" || t.leagueId == currentFilter

/-- The status-scope predicate of the spec. -/
def statusOk (currentTeamStatusFilter : String) (t : Timeline) : Bool :=
  if currentTeamStatusFilter = "remaining" then !t.isEliminated
  else if currentTeamStatusFilter = "chopped" then t.isEliminated
  else true

/-! ## Animation controller flags (lines 913-1062) -/

/-- The module-level animation flags and progress cells, plus a ghost
flag recording whether `startReplay` ever took its
resume-while-paused branch (lines 1053-1056). -/
structure AnimState where
  isAnimating : Bool
  isPaused : Bool
  pausedProgress : ℚ
  currentAnimationProgress : ℚ
  resumedFromDeadBranch : Bool
deriving Repr, DecidableEq

/-- Flag state set up by `renderFABSpendingView` (lines 937-941). -/
def initialAnimState : AnimState :=
  { isAnimating := false, isPaused := false, pausedProgress := 0,
    currentAnimationProgress := 1, resumedFromDeadBranch := false }

/-- `pauseReplay` (lines 966-979). -/
def pauseReplayOp (currentProgress : ℚ) (s : AnimState) : AnimState :=
  if !s.isAnimating then s
  else { s with
      isPaused := true
      isAnimating := false
      pausedProgress := currentProgress
      currentAnimationProgress := currentProgress }

/-- Flag effect of `resumeReplay` (lines 981-986). -/
def resumeReplayOp (s : AnimState) : AnimState :=
  if s.isAnimating then s
  else { s with isPaused := false, isAnimating := true }

/-- One non-final `animate` frame (lines 1014-1017). -/
def frameOp (progress : ℚ) (s : AnimState) : AnimState :=
  { s with pausedProgress := progress, currentAnimationProgress := progress }

/-- Natural completion: the `progress >= 1.0` branch (lines 1032-1037)
followed by `renderFinalState` (lines 1044-1049). -/
def completeOp (s : AnimState) : AnimState :=
  { s with
      isAnimating := false
      isPaused := false
      pausedProgress := 0
      currentAnimationProgress := 1 }

/-- `applyFiltersAndRerender` flag effect (lines 881-911): an in-flight
animation is cancelled and restarted at the same progress. -/
def filterChangeOp (s : AnimState) : AnimState :=
  if s.isAnimating then resumeReplayOp { s with isAnimating := false } else s

/-- `startReplay` (lines 1051-1062); the resume-while-paused branch
additionally sets the ghost flag. -/
def startReplayOp (s : AnimState) : AnimState :=
  if s.isAnimating then
    if s.isPaused then { resumeReplayOp s with resumedFromDeadBranch := true } else s
  else resumeReplayOp { s with pausedProgress := 0 }

/-- Re-initialization by a fresh `renderFABSpendingView` load. -/
def reinitOp (s : AnimState) : AnimState :=
  { s with
      isAnimating := false
      isPaused := false
      pausedProgress := 0
      currentAnimationProgress := 1 }

/-- A controller operation. -/
inductive AnimOp
  | pause (p : ℚ)
  | resume
  | frame (p : ℚ)
  | complete
  | filterChange
  | start
  | reinit
deriving Repr, DecidableEq

def applyAnimOp (s : AnimState) : AnimOp → AnimState
  | .pause p => pauseReplayOp p s
  | .resume => resumeReplayOp s
  | .frame p => frameOp p s
  | .complete => completeOp s
  | .filterChange => filterChangeOp s
  | .start => startReplayOp s
  | .reinit => reinitOp s

/-- The controller state after a sequence of operations from a fresh
load. -/
def runAnimOps (ops : List AnimOp) : AnimState :=
  ops.foldl applyAnimOp initialAnimState

/-! ## Replay frame loop (`resumeReplay`, lines 981-1042) -/

def REPLAY_DURATION_MS : ℚ := 15000

/-- Render progresses produced by the `animate` loop (lines 1013-1041)
given the successive `Date.now()` readings of its invocations: each
frame renders `min(elapsed / duration, 1)`; the completing frame also
triggers the `renderFinalState` re-render at progress 1. -/
def animateRun (startTime : ℚ) : List ℚ → List ℚ
  | [] => []
  | t :: rest =>
    let progress := min ((t - startTime) / REPLAY_DURATION_MS) 1
    if progress < 1 then progress :: animateRun startTime rest
    else [progress, 1]

/-- All render progresses of one `resumeReplay(startProgress)` call:
`startTime` is fixed from the clock reading `now0` at resume
(line 986), the initial chart renders at `startProgress` (line 1010),
then the frame loop runs on the tick readings. -/
def resumeRenders (startProgress now0 : ℚ) (ticks : List ℚ) : List ℚ :=
  let startTime := now0 - startProgress * REPLAY_DURATION_MS
  startProgress :: animateRun startTime ticks

/-! # Theorems -/

/-! ## Stable-sort infrastructure -/

theorem enumFrom_fst_le {α : Type} :
    ∀ (n : ℕ) (l : List α) (p : ℕ × α), p ∈ l.enumFrom n → n ≤ p.1 := by
  intro n l
  induction l generalizing n with
  | nil => intro p hp; cases hp
  | cons a t ih =>
    intro p hp
    rcases List.mem_cons.mp hp with rfl | hp'
    · exact le_rfl
    · exact Nat.le_of_succ_le (ih (n + 1) p hp')

theorem enumFrom_pairwise_lt {α : Type} :
    ∀ (n : ℕ) (l : List α), (l.enumFrom n).Pairwise (fun p q => p.1 < q.1) := by
  intro n l
  induction l generalizing n with
  | nil => exact List.Pairwise.nil
  | cons a t ih =>
    refine List.Pairwise.cons ?_ (ih (n + 1))
    intro q hq
    exact Nat.lt_of_succ_le (enumFrom_fst_le (n + 1) t q hq)

/-- The stable sort is a permutation of its input. -/
theorem stableSortBy_perm {α K : Type} [LinearOrder K] (key : α → K) (l : List α) :
    (stableSortBy key l).Perm l := by
  have h1 : ((l.enum).insertionSort (sRel key)).Perm l.enum :=
    List.perm_insertionSort _ _
  have h2 := h1.map Prod.snd
  rwa [List.enum_map_snd] at h2

/-- The stable sort orders the list by nondecreasing key. -/
theorem stableSortBy_pairwise {α K : Type} [LinearOrder K] (key : α → K) (l : List α) :
    (stableSortBy key l).Pairwise (fun a b => key a ≤ key b) := by
  have hs : ((l.enum).insertionSort (sRel key)).Pairwise (sRel key) :=
    List.sorted_insertionSort _ _
  exact List.Pairwise.map Prod.snd
    (fun p q h => h.elim le_of_lt (fun h' => le_of_eq h'.1)) hs

/-- Stability: in the sorted index-tagged list, equal keys keep their
original relative order. -/
theorem stableSortBy_stable {α K : Type} [LinearOrder K] (key : α → K) (l : List α) :
    ((l.enum).insertionSort (sRel key)).Pairwise
      (fun p q => key p.2 = key q.2 → p.1 < q.1) := by
  have hs : ((l.enum).insertionSort (sRel key)).Pairwise (sRel key) :=
    List.sorted_insertionSort _ _
  have h0 : (l.enum).Pairwise (fun p q : ℕ × α => p.1 ≠ q.1) :=
    (enumFrom_pairwise_lt 0 l).imp (fun h => Nat.ne_of_lt h)
  have hsym : ∀ {p q : ℕ × α}, p.1 ≠ q.1 → q.1 ≠ p.1 := fun h => h.symm
  have hne : ((l.enum).insertionSort (sRel key)).Pairwise (fun p q => p.1 ≠ q.1) :=
    ((List.perm_insertionSort (sRel key) l.enum).pairwise_iff hsym).mpr h0
  refine (hs.and hne).imp ?_
  rintro p q ⟨h1, h2⟩ heq
  rcases h1 with hlt | ⟨_, hle⟩
  · exact absurd heq (ne_of_lt hlt)
  · exact lt_of_le_of_ne hle h2

/-! ## Association-list lemmas for the `timelines` object -/

theorem lookupTL_updateTL_self :
    ∀ (m : List (ℕ × Timeline)) (r : ℕ) (nv tl : Timeline),
      lookupTL m r = some tl → lookupTL (updateTL m r nv) r = some nv := by
  intro m
  induction m with
  | nil => intro r nv tl h; cases h
  | cons kv rest ih =>
    intro r nv tl h
    obtain ⟨k, v⟩ := kv
    by_cases hk : k = r
    · simp [updateTL, lookupTL, hk]
    · simp only [updateTL, lookupTL, if_neg hk] at h ⊢
      exact ih r nv tl h

theorem lookupTL_updateTL_ne :
    ∀ (m : List (ℕ × Timeline)) (r : ℕ) (nv : Timeline) (r' : ℕ), r' ≠ r →
      lookupTL (updateTL m r nv) r' = lookupTL m r' := by
  intro m
  induction m with
  | nil => intro r nv r' _; rfl
  | cons kv rest ih =>
    intro r nv r' hne
    obtain ⟨k, v⟩ := kv
    by_cases hk : k = r
    · subst hk
      have hkr : ¬(k = r') := fun h => hne h.symm
      simp [updateTL, lookupTL, hkr]
    · simp only [updateTL, lookupTL, if_neg hk]
      by_cases hk' : k = r'
      · simp [lookupTL, hk']
      · simp only [lookupTL, if_neg hk']
        exact ih r nv r' hne

/-- C10: `computeFABTimeline` attributes a transaction's bid solely to
the first entry of `roster_ids`: a transaction whose `roster_ids` is
missing/empty leaves the timelines unchanged, the processing result
does not depend on the tail of `roster_ids`, no timeline other than the
first entry's is touched, and a missing `waiver_bid` appends a point
whose `fab` repeats the previous last value (a flat segment). -/
theorem applyTx_first_roster_attribution (m : List (ℕ × Timeline)) (tx : Tx) :
    (tx.roster_ids = [] → applyTx m tx = m) ∧
    (∀ (r : ℕ) (rest rest' : List ℕ),
      applyTx m { tx with roster_ids := r :: rest } =
        applyTx m { tx with roster_ids := r :: rest' }) ∧
    (∀ (r : ℕ) (rest : List ℕ) (r' : ℕ), r' ≠ r →
      lookupTL (applyTx m { tx with roster_ids := r :: rest }) r' = lookupTL m r') ∧
    (∀ (r : ℕ) (rest : List ℕ) (tl : Timeline),
      tx.roster_ids = r :: rest → tx.waiver_bid = none → lookupTL m r = some tl →
      (lookupTL (applyTx m tx) r).map (fun tl' => tl'.points.map (·.fab)) =
        some (tl.points.map (·.fab) ++ [(tl.points.getLastD dfltPoint).fab])) := by
  refine ⟨?_, ?_, ?_, ?_⟩
  · intro h; simp [applyTx, h]
  · intro r rest rest'; rfl
  · intro r rest r' hne
    show lookupTL
      (match lookupTL m r with
        | none => m
        | some timeline =>
          updateTL m r { timeline with
            points := timeline.points ++
              [txPoint { tx with roster_ids := r :: rest }
                ((timeline.points.getLastD dfltPoint).fab -
                  txBid { tx with roster_ids := r :: rest })] }) r' = lookupTL m r'
    cases h : lookupTL m r with
    | none => rfl
    | some timeline => exact lookupTL_updateTL_ne m r _ r' hne
  · intro r rest tl hids hbid hlook
    obtain ⟨w, st, ty, su, cr, ids, wb⟩ := tx
    dsimp only at hids hbid
    subst hids; subst hbid
    simp only [applyTx, hlook]
    rw [lookupTL_updateTL_self m r _ tl hlook]
    simp [txPoint, txBid]

theorem applyTx_first_roster_attribution_witness :
    applyTx [(1, ⟨1, "L", false, none, 985, [⟨0, 0, 1000, 0⟩]⟩)]
        ⟨1, "complete", "waiver", some 50, none, [], none⟩ =
      [(1, ⟨1, "L", false, none, 985, [⟨0, 0, 1000, 0⟩]⟩)] ∧
    applyTx [(1, ⟨1, "L", false, none, 985, [⟨0, 0, 1000, 0⟩]⟩)]
        ⟨1, "complete", "waiver", some 50, none, [1, 2], none⟩ =
      applyTx [(1, ⟨1, "L", false, none, 985, [⟨0, 0, 1000, 0⟩]⟩)]
        ⟨1, "complete", "waiver", some 50, none, [1], none⟩ ∧
    lookupTL (applyTx [(1, ⟨1, "L", false, none, 985, [⟨0, 0, 1000, 0⟩]⟩)]
        ⟨1, "complete", "waiver", some 50, none, [1], none⟩) 2 =
      lookupTL [(1, ⟨1, "L", false, none, 985, [⟨0, 0, 1000, 0⟩]⟩)] 2 ∧
    (lookupTL (applyTx [(1, ⟨1, "L", false, none, 985, [⟨0, 0, 1000, 0⟩]⟩)]
        ⟨1, "complete", "waiver", some 50, none, [1], none⟩) 1).map
      (fun tl' => tl'.points.map (·.fab)) = some [1000, 1000] := by
  refine ⟨(applyTx_first_roster_attribution _ _).1 rfl,
    (applyTx_first_roster_attribution _
      ⟨1, "complete", "waiver", some 50, none, [], none⟩).2.1 1 [2] [],
    (applyTx_first_roster_attribution _
      ⟨1, "complete", "waiver", some 50, none, [], none⟩).2.2.1 1 [] 2 (by decide), ?_⟩
  have h := (applyTx_first_roster_attribution
    [(1, ⟨1, "L", false, none, 985, [⟨0, 0, 1000, 0⟩]⟩)]
    ⟨1, "complete", "waiver", some 50, none, [1], none⟩).2.2.2 1 []
    ⟨1, "L", false, none, 985, [⟨0, 0, 1000, 0⟩]⟩ rfl rfl rfl
  simpa using h

/-! ## C3: determinism / idempotence of the reconstructor -/

/-- C3: the timeline reconstruction is a pure replay-from-log
computation: two runs on equal inputs (cap, roster, events) produce
identical timeline lists. -/
theorem computeFABTimeline_deterministic (lg lg' : String) (cap cap' : Option ℚ)
    (rosters rosters' : List Roster) (txs txs' : List Tx)
    (h1 : lg = lg') (h2 : cap = cap') (h3 : rosters = rosters') (h4 : txs = txs') :
    computeFABTimeline lg cap rosters txs = computeFABTimeline lg' cap' rosters' txs' := by
  subst h1; subst h2; subst h3; subst h4; rfl

theorem computeFABTimeline_deterministic_witness :
    computeFABTimeline "L" (some 1000) [⟨1, some 15, none⟩]
        [⟨1, "complete", "waiver", some 50, none, [1], some 5⟩] =
      computeFABTimeline "L" (some 1000) [⟨1, some 15, none⟩]
        [⟨1, "complete", "waiver", some 50, none, [1], some 5⟩] :=
  computeFABTimeline_deterministic "L" "L" (some 1000) (some 1000)
    [⟨1, some 15, none⟩] [⟨1, some 15, none⟩]
    [⟨1, "complete", "waiver", some 50, none, [1], some 5⟩]
    [⟨1, "complete", "waiver", some 50, none, [1], some 5⟩] rfl rfl rfl rfl

/-! ## C8: curve tension clamping and antitonicity -/

/-- C8: the control-point tension used by `createSmoothPath` for every
consecutive pair is clamped to [0.3, 0.6], and a larger magnitude FAB
change never yields a looser tension (the tension is nonincreasing in
the magnitude of the value change). -/
theorem tension_clamped_antitone :
    (∀ d : ℚ, 3 / 10 ≤ tension d ∧ tension d ≤ 3 / 5) ∧
    (∀ d₁ d₂ : ℚ, 0 ≤ d₁ → d₁ ≤ d₂ → tension d₂ ≤ tension d₁) := by
  constructor
  · intro d
    refine ⟨le_max_left _ _, max_le (by norm_num) (min_le_left _ _)⟩
  · intro d₁ d₂ _ h
    unfold tension
    have hmono : 1 - d₂ / 200 ≤ 1 - d₁ / 200 := by linarith
    exact max_le_max le_rfl (min_le_min le_rfl hmono)

theorem tension_clamped_antitone_witness :
    (3 / 10 ≤ tension 100 ∧ tension 100 ≤ 3 / 5) ∧ tension 100 ≤ tension 0 :=
  ⟨tension_clamped_antitone.1 100,
    tension_clamped_antitone.2 0 100 (by norm_num) (by norm_num)⟩

/-! ## C9: the animation flags invariant -/

/-- The two-flag invariant together with the ghost flag recording the
resume-while-paused branch of `startReplay`. -/
def AnimInv (s : AnimState) : Prop :=
  (s.isAnimating && s.isPaused) = false ∧ s.resumedFromDeadBranch = false

theorem applyAnimOp_preserves_inv (s : AnimState) (op : AnimOp)
    (h : AnimInv s) : AnimInv (applyAnimOp s op) := by
  obtain ⟨a, p, pp, cap, dead⟩ := s
  obtain ⟨hflag, hdead⟩ := h
  simp only at hflag hdead
  subst hdead
  cases op <;>
    cases a <;> cases p <;>
      simp_all [AnimInv, applyAnimOp, pauseReplayOp, resumeReplayOp, frameOp,
        completeOp, filterChangeOp, startReplayOp, reinitOp]

theorem runAnimOps_inv_aux :
    ∀ (ops : List AnimOp) (s : AnimState), AnimInv s →
      AnimInv (ops.foldl applyAnimOp s) := by
  intro ops
  induction ops with
  | nil => intro s h; exact h
  | cons op rest ih =>
    intro s h
    exact ih (applyAnimOp s op) (applyAnimOp_preserves_inv s op h)

/-- C9: after any sequence of controller operations from a fresh load,
`isAnimating` and `isPaused` are never both true, so the
resume-while-paused branch inside `startReplay` is never taken. -/
theorem anim_flags_never_both_true (ops : List AnimOp) :
    ((runAnimOps ops).isAnimating && (runAnimOps ops).isPaused) = false ∧
      (runAnimOps ops).resumedFromDeadBranch = false :=
  runAnimOps_inv_aux ops initialAnimState ⟨rfl, rfl⟩

/-! ## C5: declutter (jitter) pass -/

/-- C5 counterexample: candidates at (0,0) and (0,-4) are within the
proximity threshold on both axes before offsetting, yet after the pass
(offsets (0,0) and (3.5,7)) their distance is still below the threshold
on both axes, so the claimed post-offset separation fails. -/
theorem jitter_separation_counterexample :
    (absQ ((0 : ℚ) - 0) < JITTER_THRESHOLD ∧ absQ ((0 : ℚ) - (-4)) < JITTER_THRESHOLD) ∧
    computeJitter [⟨0, 0⟩, ⟨0, -4⟩] = [(0, 0), (7 / 2, 7)] ∧
    ¬(JITTER_THRESHOLD ≤
        absQ ((0 + ((computeJitter [⟨0, 0⟩, ⟨0, -4⟩]).getD 0 (0, 0)).1) -
          (0 + ((computeJitter [⟨0, 0⟩, ⟨0, -4⟩]).getD 1 (0, 0)).1)) ∨
      JITTER_THRESHOLD ≤
        absQ ((0 + ((computeJitter [⟨0, 0⟩, ⟨0, -4⟩]).getD 0 (0, 0)).2) -
          (-4 + ((computeJitter [⟨0, 0⟩, ⟨0, -4⟩]).getD 1 (0, 0)).2))) := by
  norm_num [computeJitter, jitterProcess, jitterAccum, jitterStep, absQ,
    JITTER_THRESHOLD, JITTER_OFFSET]

theorem jitterStep_le (pos : AvatarPos) (acc : ℚ × ℚ) (other : AvatarPos × ℚ × ℚ) :
    acc.1 ≤ (jitterStep pos acc other).1 ∧ acc.2 ≤ (jitterStep pos acc other).2 := by
  unfold jitterStep
  by_cases h : absQ (pos.x - (other.1.x + other.2.1)) < JITTER_THRESHOLD ∧
      absQ (pos.y - (other.1.y + other.2.2)) < JITTER_THRESHOLD
  · rw [if_pos h]
    have hJ : (0 : ℚ) ≤ JITTER_OFFSET * (1 / 2) := by norm_num [JITTER_OFFSET]
    have hJ2 : (0 : ℚ) ≤ JITTER_OFFSET := by norm_num [JITTER_OFFSET]
    exact ⟨by dsimp only; linarith, by dsimp only; linarith⟩
  · rw [if_neg h]; exact ⟨le_rfl, le_rfl⟩

theorem jitterFold_le (pos : AvatarPos) :
    ∀ (l : List (AvatarPos × ℚ × ℚ)) (acc : ℚ × ℚ),
      acc.1 ≤ (l.foldl (jitterStep pos) acc).1 ∧ acc.2 ≤ (l.foldl (jitterStep pos) acc).2 := by
  intro l
  induction l with
  | nil => intro acc; exact ⟨le_rfl, le_rfl⟩
  | cons other rest ih =>
    intro acc
    have h1 := jitterStep_le pos acc other
    have h2 := ih (jitterStep pos acc other)
    exact ⟨h1.1.trans h2.1, h1.2.trans h2.2⟩

theorem jitterFold_conflict (pos : AvatarPos) :
    ∀ (l : List (AvatarPos × ℚ × ℚ)) (acc : ℚ × ℚ),
      (∃ other ∈ l, jitterConflict other pos) →
      acc.1 + JITTER_OFFSET * (1 / 2) ≤ (l.foldl (jitterStep pos) acc).1 ∧
        acc.2 + JITTER_OFFSET ≤ (l.foldl (jitterStep pos) acc).2 := by
  intro l
  induction l with
  | nil => rintro acc ⟨other, h, _⟩; cases h
  | cons o rest ih =>
    rintro acc ⟨other, hmem, hconf⟩
    rcases List.mem_cons.mp hmem with rfl | hmem'
    · have hstep : jitterStep pos acc other =
          (acc.1 + JITTER_OFFSET * (1 / 2), acc.2 + JITTER_OFFSET) := by
        unfold jitterStep
        exact if_pos hconf
      have h2 := jitterFold_le pos rest (jitterStep pos acc other)
      rw [hstep] at h2
      rw [List.foldl_cons, hstep]
      exact ⟨h2.1, h2.2⟩
    · have h1 := jitterStep_le pos acc o
      have h2 := ih (jitterStep pos acc o) ⟨other, hmem', hconf⟩
      rw [List.foldl_cons]
      constructor
      · calc acc.1 + JITTER_OFFSET * (1 / 2)
            ≤ (jitterStep pos acc o).1 + JITTER_OFFSET * (1 / 2) := by linarith [h1.1]
          _ ≤ _ := h2.1
      · calc acc.2 + JITTER_OFFSET
            ≤ (jitterStep pos acc o).2 + JITTER_OFFSET := by linarith [h1.2]
          _ ≤ _ := h2.2

/-- C5 amended: the declutter pass is deterministic (same ordered
candidate list, same offsets), and any candidate that conflicts with an
earlier processed candidate (both axis distances below the threshold at
processing time) accumulates at least the fixed displacement of 3.5
horizontally and 7 vertically — but the post-offset distance is not
guaranteed to reach the threshold on either axis. -/
theorem jitter_deterministic_and_displacing :
    (∀ cands : List AvatarPos, computeJitter cands = computeJitter cands) ∧
    (∀ (earlier : List (AvatarPos × ℚ × ℚ)) (pos : AvatarPos),
      (∃ other ∈ earlier, jitterConflict other pos) →
      JITTER_OFFSET * (1 / 2) ≤ (jitterAccum earlier pos).1 ∧
        JITTER_OFFSET ≤ (jitterAccum earlier pos).2) := by
  constructor
  · intro cands; rfl
  · intro earlier pos hconf
    have h := jitterFold_conflict pos earlier (0, 0) hconf
    unfold jitterAccum
    exact ⟨by simpa using h.1, by simpa using h.2⟩

theorem jitter_deterministic_and_displacing_witness :
    computeJitter [⟨0, 0⟩, ⟨0, -4⟩] = computeJitter [⟨0, 0⟩, ⟨0, -4⟩] ∧
    JITTER_OFFSET * (1 / 2) ≤ (jitterAccum [(⟨0, 0⟩, 0, 0)] ⟨0, -4⟩).1 ∧
      JITTER_OFFSET ≤ (jitterAccum [(⟨0, 0⟩, 0, 0)] ⟨0, -4⟩).2 :=
  ⟨jitter_deterministic_and_displacing.1 [⟨0, 0⟩, ⟨0, -4⟩],
    jitter_deterministic_and_displacing.2 [(⟨0, 0⟩, 0, 0)] ⟨0, -4⟩
      ⟨(⟨0, 0⟩, 0, 0), List.mem_singleton.mpr rfl,
        by norm_num [jitterConflict, absQ, JITTER_THRESHOLD]⟩⟩

/-! ## C7: animation progress bounds and the final render -/

theorem replay_duration_pos : (0 : ℚ) < REPLAY_DURATION_MS := by
  norm_num [REPLAY_DURATION_MS]

theorem animateRun_head (st t : ℚ) (rest : List ℚ) :
    (animateRun st (t :: rest)).head? =
      some (min ((t - st) / REPLAY_DURATION_MS) 1) := by
  unfold animateRun
  by_cases h : min ((t - st) / REPLAY_DURATION_MS) 1 < 1
  · rw [if_pos h]; rfl
  · rw [if_neg h]; rfl

theorem animateRun_le_one (st : ℚ) :
    ∀ (ticks : List ℚ), ∀ p ∈ animateRun st ticks, p ≤ 1 := by
  intro ticks
  induction ticks with
  | nil => intro p hp; cases hp
  | cons t rest ih =>
    intro p hp
    unfold animateRun at hp
    by_cases h : min ((t - st) / REPLAY_DURATION_MS) 1 < 1
    · rw [if_pos h] at hp
      rcases List.mem_cons.mp hp with rfl | hp'
      · exact min_le_right _ _
      · exact ih p hp'
    · rw [if_neg h] at hp
      rcases List.mem_cons.mp hp with rfl | hp'
      · exact min_le_right _ _
      · rw [List.mem_singleton.mp hp']

theorem animateRun_nonneg (st : ℚ) :
    ∀ (ticks : List ℚ), (∀ t ∈ ticks, st ≤ t) → ∀ p ∈ animateRun st ticks, 0 ≤ p := by
  intro ticks
  induction ticks with
  | nil => intro _ p hp; cases hp
  | cons t rest ih =>
    intro hts p hp
    have hhead : (0 : ℚ) ≤ min ((t - st) / REPLAY_DURATION_MS) 1 := by
      refine le_min ?_ (by norm_num)
      exact div_nonneg (sub_nonneg.mpr (hts t (List.mem_cons_self t rest)))
        (le_of_lt replay_duration_pos)
    unfold animateRun at hp
    by_cases h : min ((t - st) / REPLAY_DURATION_MS) 1 < 1
    · rw [if_pos h] at hp
      rcases List.mem_cons.mp hp with rfl | hp'
      · exact hhead
      · exact ih (fun u hu => hts u (List.mem_cons_of_mem t hu)) p hp'
    · rw [if_neg h] at hp
      rcases List.mem_cons.mp hp with rfl | hp'
      · exact hhead
      · rw [List.mem_singleton.mp hp']; norm_num

theorem animateRun_chain (st : ℚ) :
    ∀ (ticks : List ℚ), List.Chain' (· ≤ ·) ticks →
      List.Chain' (· ≤ ·) (animateRun st ticks) := by
  intro ticks
  induction ticks with
  | nil => intro _; exact List.chain'_nil
  | cons t rest ih =>
    intro hch
    rw [List.chain'_cons'] at hch
    unfold animateRun
    by_cases h : min ((t - st) / REPLAY_DURATION_MS) 1 < 1
    · rw [if_pos h]
      rw [List.chain'_cons']
      refine ⟨?_, ih hch.2⟩
      intro b hb
      cases rest with
      | nil => cases hb
      | cons t' rest' =>
        rw [animateRun_head] at hb
        have hb' : min ((t' - st) / REPLAY_DURATION_MS) 1 = b := by simpa using hb
        subst hb'
        have htt : t ≤ t' := hch.1 t' rfl
        refine min_le_min ?_ le_rfl
        exact (div_le_div_iff_of_pos_right replay_duration_pos).mpr (by linarith)
    · rw [if_neg h]
      exact List.chain'_cons.mpr ⟨min_le_right _ _, List.chain'_singleton _⟩

theorem animateRun_count (st : ℚ) :
    ∀ (ticks : List ℚ),
      (animateRun st ticks).count 1 = 0 ∨ (animateRun st ticks).count 1 = 2 := by
  intro ticks
  induction ticks with
  | nil => left; rfl
  | cons t rest ih =>
    unfold animateRun
    by_cases h : min ((t - st) / REPLAY_DURATION_MS) 1 < 1
    · rw [if_pos h]
      rw [List.count_cons]
      simp only [beq_iff_eq, if_neg (ne_of_lt h), Nat.add_zero]
      exact ih
    · rw [if_neg h]
      right
      have h1 : min ((t - st) / REPLAY_DURATION_MS) 1 = 1 :=
        le_antisymm (min_le_right _ _) (not_lt.mp h)
      rw [h1]
      simp [List.count_cons]

/-- C7 counterexample: a completing run renders at full progress twice,
not once — the final `animate` frame already renders at progress 1 and
`renderFinalState` renders at progress 1 again, and `renderChart`
performs the extend-to-horizon step on every render whose progress is
exactly 1. -/
theorem replay_full_progress_renders_twice :
    resumeRenders 0 0 [15000] = [0, 1, 1] ∧
      (resumeRenders 0 0 [15000]).count 1 = 2 := by
  norm_num [resumeRenders, animateRun, REPLAY_DURATION_MS, List.count_cons]

/-- C7 amended: during playback every rendered progress is in [0,1] and
the rendered progresses are nondecreasing; a run that reaches full
progress renders at progress 1 exactly twice (final frame plus the
final-state render, each performing the extend-to-horizon step), and a
run that never completes renders at progress 1 zero times. -/
theorem replay_progress_bounds (sp now0 : ℚ) (ticks : List ℚ)
    (h0 : 0 ≤ sp) (h1 : sp < 1) (hmono : List.Chain' (· ≤ ·) (now0 :: ticks)) :
    (∀ p ∈ resumeRenders sp now0 ticks, 0 ≤ p ∧ p ≤ 1) ∧
    List.Chain' (· ≤ ·) (resumeRenders sp now0 ticks) ∧
    ((resumeRenders sp now0 ticks).count 1 = 0 ∨
      (resumeRenders sp now0 ticks).count 1 = 2) := by
  have hD := replay_duration_pos
  have hstle : now0 - sp * REPLAY_DURATION_MS ≤ now0 := by
    nlinarith
  have hticks_ge : ∀ t ∈ ticks, now0 ≤ t := by
    have hp : (now0 :: ticks).Pairwise (· ≤ ·) := List.chain'_iff_pairwise.mp hmono
    exact fun t ht => List.rel_of_pairwise_cons hp ht
  have hticks_st : ∀ t ∈ ticks, now0 - sp * REPLAY_DURATION_MS ≤ t :=
    fun t ht => le_trans hstle (hticks_ge t ht)
  unfold resumeRenders
  refine ⟨?_, ?_, ?_⟩
  · intro p hp
    rcases List.mem_cons.mp hp with rfl | hp'
    · exact ⟨h0, le_of_lt h1⟩
    · exact ⟨animateRun_nonneg _ ticks hticks_st p hp',
        animateRun_le_one _ ticks p hp'⟩
  · rw [List.chain'_cons']
    constructor
    · intro b hb
      cases ticks with
      | nil => cases hb
      | cons t rest =>
        rw [animateRun_head] at hb
        have hb' : min ((t - (now0 - sp * REPLAY_DURATION_MS)) /
            REPLAY_DURATION_MS) 1 = b := by simpa using hb
        subst hb'
        refine le_min ?_ (le_of_lt h1)
        rw [le_div_iff₀ hD]
        have ht : now0 ≤ t := hticks_ge t (List.mem_cons_self t rest)
        linarith
    · exact animateRun_chain _ ticks (List.chain'_cons'.mp hmono).2
  · rw [List.count_cons]
    simp only [beq_iff_eq, if_neg (ne_of_lt h1), Nat.add_zero]
    exact animateRun_count _ ticks

theorem replay_progress_bounds_witness :
    List.Chain' (· ≤ ·) (resumeRenders 0 0 [7500, 15000]) ∧
    ((resumeRenders 0 0 [7500, 15000]).count 1 = 0 ∨
      (resumeRenders 0 0 [7500, 15000]).count 1 = 2) := by
  have h := replay_progress_bounds 0 0 [7500, 15000] (by norm_num) (by norm_num)
    (by norm_num [List.chain'_cons, List.chain'_singleton])
  exact ⟨h.2.1, h.2.2⟩

/-! ## C6: the view filter -/

theorem viewFiltered_eq_filter (f sf : String) (all : List Timeline) :
    viewFiltered f sf all = all.filter (fun t => leagueOk f t && statusOk sf t) := by
  unfold viewFiltered leagueOk statusOk
  by_cases hf : f = "both"
  · subst hf
    simp only [ne_eq, not_true_eq_false, if_false, beq_self_eq_true, Bool.true_or,
      Bool.true_and]
    by_cases h1 : sf = "remaining"
    · simp [h1]
    · by_cases h2 : sf = "chopped"
      · simp [h1, h2]
      · simp [h1, h2]
  · rw [if_pos hf]
    have hbeq : (f == "both") = false := by
      exact beq_eq_false_iff_ne.mpr hf
    by_cases h1 : sf = "remaining"
    · rw [if_pos h1, List.filter_filter]
      refine List.filter_congr ?_
      intro t _
      rw [if_pos h1, hbeq, Bool.false_or, Bool.and_comm]
    · by_cases h2 : sf = "chopped"
      · rw [if_neg h1, if_pos h2, List.filter_filter]
        refine List.filter_congr ?_
        intro t _
        rw [if_neg h1, if_pos h2, hbeq, Bool.false_or, Bool.and_comm]
      · rw [if_neg h1, if_neg h2]
        refine List.filter_congr ?_
        intro t _
        rw [if_neg h1, if_neg h2, hbeq, Bool.false_or, Bool.and_true]

/-- C6: the view filter returns a new list holding exactly the
timelines passing both the league-scope and status-scope predicates
(combined by logical AND), sorted descending by each timeline's last
point value, with ties kept in original insertion order (the
index-tagged sorted list is strictly increasing in original position on
equal keys).  The embedding is pure, so the source list is untouched. -/
theorem filterTimelinesForView_spec (f sf : String) (all : List Timeline) :
    (filterTimelinesForView f sf all).Perm
      (all.filter (fun t => leagueOk f t && statusOk sf t)) ∧
    (filterTimelinesForView f sf all).Pairwise
      (fun a b => lastFabOf b ≤ lastFabOf a) ∧
    ((viewFiltered f sf all).enum.insertionSort
        (sRel (fun t => -lastFabOf t))).Pairwise
      (fun p q => lastFabOf p.2 = lastFabOf q.2 → p.1 < q.1) := by
  refine ⟨?_, ?_, ?_⟩
  · unfold filterTimelinesForView
    by_cases h : all.isEmpty
    · rw [if_pos h]
      have hnil : all = [] := List.isEmpty_iff.mp h
      subst hnil
      exact List.Perm.refl _
    · rw [if_neg h]
      exact (stableSortBy_perm _ _).trans
        (viewFiltered_eq_filter f sf all ▸ List.Perm.refl _)
  · unfold filterTimelinesForView
    by_cases h : all.isEmpty
    · rw [if_pos h]; exact List.Pairwise.nil
    · rw [if_neg h]
      refine (stableSortBy_pairwise (fun t => -lastFabOf t) _).imp ?_
      intro a b hab
      exact neg_le_neg_iff.mp hab
  · refine (stableSortBy_stable (fun t => -lastFabOf t) _).imp ?_
    intro p q hpq heq
    exact hpq (by rw [heq])

/-! ## C4: extend-to-horizon for an eliminated team -/

theorem getLastD_mem {α : Type} :
    ∀ (l : List α) (d : α), l ≠ [] → l.getLastD d ∈ l := by
  intro l
  induction l with
  | nil => intro d h; exact absurd rfl h
  | cons a t ih =>
    intro d _
    rw [List.getLastD_cons]
    cases t with
    | nil => simp [List.getLastD]
    | cons b t' => exact List.mem_cons_of_mem a (ih a (by simp))

/-- C4: at full animation progress, a team eliminated at week 7 whose
events all lie strictly before week 7 is extended exactly with the
single flat point `(week 7, weekProgress 0, last value)` — regardless
of the horizon `maxPosition` (e.g. week 9) reached by other teams — and
its rendered line never passes time position 7. -/
theorem extend_eliminated_stops_at_week_seven
    (maxWeek maxPosition : ℚ) (tl : Timeline)
    (helim : tl.isEliminated = true)
    (hweek : tl.eliminatedWeek = some 7)
    (hne : tl.points ≠ [])
    (hbound : ∀ p ∈ tl.points, p.week ≤ 6 ∧ 0 ≤ p.weekProgress ∧ p.weekProgress ≤ 1) :
    renderedPoints maxWeek 1 maxPosition tl =
      tl.points ++ [⟨7, 0, (tl.points.getLastD dfltPoint).fab,
        (tl.points.getLastD dfltPoint).timestamp⟩] ∧
    ∀ p ∈ renderedPoints maxWeek 1 maxPosition tl, p.week + p.weekProgress ≤ 7 := by
  have hvis : visiblePointsAt maxWeek 1 tl.points = tl.points := by
    unfold visiblePointsAt
    rw [if_neg (lt_irrefl (1 : ℚ))]
  have htruthy : truthyOptQ tl.eliminatedWeek = true := by
    rw [hweek]
    unfold truthyOptQ
    simp [bne_iff_ne]
  have hfilter : tl.points.filter
      (fun p => decide (p.week ≤ tl.eliminatedWeek.getD 0)) = tl.points := by
    refine List.filter_eq_self.mpr ?_
    intro p hp
    have h7 : p.week ≤ tl.eliminatedWeek.getD 0 := by
      rw [hweek]
      simp only [Option.getD_some]
      have := (hbound p hp).1
      linarith
    exact decide_eq_true h7
  have hlastmem : tl.points.getLastD dfltPoint ∈ tl.points :=
    getLastD_mem tl.points dfltPoint hne
  have hlastweek : (tl.points.getLastD dfltPoint).week < tl.eliminatedWeek.getD 0 := by
    rw [hweek]
    simp only [Option.getD_some]
    have := (hbound _ hlastmem).1
    linarith
  have hext : renderedPoints maxWeek 1 maxPosition tl =
      tl.points ++ [⟨tl.eliminatedWeek.getD 0, 0, (tl.points.getLastD dfltPoint).fab,
        (tl.points.getLastD dfltPoint).timestamp⟩] := by
    unfold renderedPoints
    rw [hvis]
    unfold extendVisiblePoints
    rw [if_pos ⟨rfl, hne⟩, if_pos ⟨helim, htruthy⟩]
    dsimp only
    rw [hfilter, if_pos hne, if_pos hlastweek]
  rw [hweek] at hext
  refine ⟨hext, ?_⟩
  intro p hp
  rw [hext] at hp
  rcases List.mem_append.mp hp with hp' | hp'
  · obtain ⟨hw, _, hpr⟩ := hbound p hp'
    linarith
  · rw [List.mem_singleton.mp hp']
    norm_num

theorem extend_eliminated_stops_at_week_seven_witness :
    renderedPoints 9 1 9
        ⟨2, "L", true, some 7, 800, [⟨0, 0, 1000, 0⟩, ⟨5, 1 / 2, 800, 123⟩]⟩ =
      [⟨0, 0, 1000, 0⟩, ⟨5, 1 / 2, 800, 123⟩, ⟨7, 0, 800, 123⟩] := by
  have h := (extend_eliminated_stops_at_week_seven 9 9
    ⟨2, "L", true, some 7, 800, [⟨0, 0, 1000, 0⟩, ⟨5, 1 / 2, 800, 123⟩]⟩
    rfl rfl (by simp)
    (by intro p hp; fin_cases hp <;> norm_num)).1
  simpa [List.getLastD_cons, List.getLastD] using h

/-! ## C1: the reconstructor's origin point and monotone fold -/

theorem scanl_concat {α β : Type} (f : α → β → α) :
    ∀ (l : List β) (b : α) (a : β),
      List.scanl f b (l ++ [a]) = List.scanl f b l ++ [f (l.foldl f b) a] := by
  intro l
  induction l with
  | nil => intro b a; rfl
  | cons x t ih =>
    intro b a
    simp only [List.cons_append, List.scanl_cons, List.foldl_cons]
    rw [ih]
    simp

theorem scanl_getLastD {α β : Type} (f : α → β → α) :
    ∀ (l : List β) (b d : α), (List.scanl f b l).getLastD d = l.foldl f b := by
  intro l
  induction l with
  | nil => intro b d; rfl
  | cons x t ih =>
    intro b d
    rw [List.scanl_cons, List.singleton_append, List.getLastD_cons, List.foldl_cons]
    exact ih (f b x) b

theorem scanl_ne_nil {α β : Type} (f : α → β → α) (b : α) (l : List β) :
    List.scanl f b l ≠ [] := by
  cases l <;> simp [List.scanl]

theorem getLastD_fab :
    ∀ (pts : List TPoint) (d : TPoint),
      (pts.getLastD d).fab = (pts.map (·.fab)).getLastD d.fab := by
  intro pts
  induction pts with
  | nil => intro d; rfl
  | cons a t ih =>
    intro d
    rw [List.getLastD_cons, List.map_cons, List.getLastD_cons]
    exact ih a

theorem head?_append_of_ne_nil {α : Type} (l l' : List α) (h : l ≠ []) :
    (l ++ l').head? = l.head? := by
  cases l with
  | nil => exact absurd rfl h
  | cons a t => rfl

theorem mem_insertTimeline :
    ∀ (m : List (ℕ × Timeline)) (k : ℕ) (v : Timeline) (kv : ℕ × Timeline),
      kv ∈ insertTimeline m k v → kv = (k, v) ∨ kv ∈ m := by
  intro m
  induction m with
  | nil => intro k v kv hkv; simpa [insertTimeline] using hkv
  | cons kv' rest ih =>
    intro k v kv hkv
    obtain ⟨k', v'⟩ := kv'
    unfold insertTimeline at hkv
    by_cases h1 : k < k'
    · rw [if_pos h1] at hkv
      rcases List.mem_cons.mp hkv with rfl | h
      · exact Or.inl rfl
      · exact Or.inr h
    · rw [if_neg h1] at hkv
      by_cases h2 : k = k'
      · rw [if_pos h2] at hkv
        rcases List.mem_cons.mp hkv with rfl | h
        · exact Or.inl rfl
        · exact Or.inr (List.mem_cons_of_mem _ h)
      · rw [if_neg h2] at hkv
        rcases List.mem_cons.mp hkv with rfl | h
        · exact Or.inr (List.mem_cons_self _ _)
        · rcases ih k v kv h with h' | h'
          · exact Or.inl h'
          · exact Or.inr (List.mem_cons_of_mem _ h')

theorem keysSorted_insertTimeline :
    ∀ (m : List (ℕ × Timeline)) (k : ℕ) (v : Timeline),
      keysSorted m → keysSorted (insertTimeline m k v) := by
  intro m
  induction m with
  | nil =>
    intro k v _
    simp [insertTimeline, keysSorted]
  | cons kv' rest ih =>
    intro k v hs
    obtain ⟨k', v'⟩ := kv'
    have hs' := (List.pairwise_cons.mp hs)
    unfold insertTimeline
    by_cases h1 : k < k'
    · rw [if_pos h1]
      refine List.Pairwise.cons ?_ hs
      intro kv hkv
      rcases List.mem_cons.mp hkv with rfl | h
      · exact h1
      · exact lt_trans h1 (hs'.1 kv h)
    · rw [if_neg h1]
      by_cases h2 : k = k'
      · rw [if_pos h2]
        subst h2
        exact List.Pairwise.cons hs'.1 hs'.2
      · rw [if_neg h2]
        refine List.Pairwise.cons ?_ (ih k v hs'.2)
        intro kv hkv
        rcases mem_insertTimeline rest k v kv hkv with rfl | h
        · exact lt_of_le_of_ne (Nat.le_of_not_lt h1) (fun h => h2 h.symm)
        · exact hs'.1 kv h

theorem lookupTL_mem :
    ∀ (m : List (ℕ × Timeline)) (rid : ℕ) (tl : Timeline),
      lookupTL m rid = some tl → (rid, tl) ∈ m := by
  intro m
  induction m with
  | nil => intro rid tl h; cases h
  | cons kv rest ih =>
    intro rid tl h
    obtain ⟨k, v⟩ := kv
    unfold lookupTL at h
    by_cases hk : k = rid
    · rw [if_pos hk] at h
      obtain rfl := Option.some_injective _ h
      subst hk
      exact List.mem_cons_self _ _
    · rw [if_neg hk] at h
      exact List.mem_cons_of_mem _ (ih rid tl h)

theorem lookupTL_none :
    ∀ (m : List (ℕ × Timeline)) (rid : ℕ),
      lookupTL m rid = none → ∀ kv ∈ m, kv.1 ≠ rid := by
  intro m
  induction m with
  | nil => intro rid _ kv hkv; cases hkv
  | cons kv' rest ih =>
    intro rid h kv hkv
    obtain ⟨k, v⟩ := kv'
    unfold lookupTL at h
    by_cases hk : k = rid
    · rw [if_pos hk] at h; cases h
    · rw [if_neg hk] at h
      rcases List.mem_cons.mp hkv with rfl | hkv'
      · exact hk
      · exact ih rid h kv hkv'

theorem map_fst_updateTL :
    ∀ (m : List (ℕ × Timeline)) (r : ℕ) (nv : Timeline),
      (updateTL m r nv).map Prod.fst = m.map Prod.fst := by
  intro m
  induction m with
  | nil => intro r nv; rfl
  | cons kv rest ih =>
    intro r nv
    obtain ⟨k, v⟩ := kv
    unfold updateTL
    by_cases hk : k = r
    · rw [if_pos hk]; rfl
    · rw [if_neg hk]
      simp only [List.map_cons]
      rw [ih]

theorem keysSorted_updateTL (m : List (ℕ × Timeline)) (r : ℕ) (nv : Timeline)
    (h : keysSorted m) : keysSorted (updateTL m r nv) := by
  unfold keysSorted at h ⊢
  have h1 : (m.map Prod.fst).Pairwise (· < ·) := by
    rw [List.pairwise_map]
    exact h
  have h2 : ((updateTL m r nv).map Prod.fst).Pairwise (· < ·) := by
    rw [map_fst_updateTL]
    exact h1
  rw [List.pairwise_map] at h2
  exact h2

theorem mem_updateTL :
    ∀ (m : List (ℕ × Timeline)) (r : ℕ) (nv : Timeline), keysSorted m →
      ∀ kv ∈ updateTL m r nv, (kv ∈ m ∧ kv.1 ≠ r) ∨ kv = (r, nv) := by
  intro m
  induction m with
  | nil => intro r nv _ kv hkv; cases hkv
  | cons kv' rest ih =>
    intro r nv hs kv hkv
    obtain ⟨k, v⟩ := kv'
    have hs' := List.pairwise_cons.mp hs
    unfold updateTL at hkv
    by_cases hk : k = r
    · rw [if_pos hk] at hkv
      rcases List.mem_cons.mp hkv with rfl | h
      · exact Or.inr (by rw [hk])
      · refine Or.inl ⟨List.mem_cons_of_mem _ h, ?_⟩
        have := hs'.1 kv h
        omega
    · rw [if_neg hk] at hkv
      rcases List.mem_cons.mp hkv with rfl | h
      · exact Or.inl ⟨List.mem_cons_self _ _, hk⟩
      · rcases ih r nv hs'.2 kv h with ⟨h1, h2⟩ | h1
        · exact Or.inl ⟨List.mem_cons_of_mem _ h1, h2⟩
        · exact Or.inr h1

theorem applyTx_eq_nil (m : List (ℕ × Timeline)) (tx : Tx)
    (h : tx.roster_ids = []) : applyTx m tx = m := by
  obtain ⟨w, st, ty, su, cr, ids, wb⟩ := tx
  dsimp only at h
  subst h
  rfl

theorem applyTx_eq_miss (m : List (ℕ × Timeline)) (tx : Tx) (rid : ℕ)
    (rest : List ℕ) (h : tx.roster_ids = rid :: rest)
    (hl : lookupTL m rid = none) : applyTx m tx = m := by
  obtain ⟨w, st, ty, su, cr, ids, wb⟩ := tx
  dsimp only at h
  subst h
  simp only [applyTx, hl]

theorem applyTx_eq_hit (m : List (ℕ × Timeline)) (tx : Tx) (rid : ℕ)
    (rest : List ℕ) (timeline : Timeline) (h : tx.roster_ids = rid :: rest)
    (hl : lookupTL m rid = some timeline) :
    applyTx m tx = updateTL m rid { timeline with
      points := timeline.points ++
        [txPoint tx ((timeline.points.getLastD dfltPoint).fab - txBid tx)] } := by
  obtain ⟨w, st, ty, su, cr, ids, wb⟩ := tx
  dsimp only at h
  subst h
  simp only [applyTx, hl]

theorem applyTx_keysSorted (m : List (ℕ × Timeline)) (tx : Tx)
    (h : keysSorted m) : keysSorted (applyTx m tx) := by
  cases hids : tx.roster_ids with
  | nil => rw [applyTx_eq_nil m tx hids]; exact h
  | cons rid rest =>
    cases hl : lookupTL m rid with
    | none => rw [applyTx_eq_miss m tx rid rest hids hl]; exact h
    | some timeline =>
      rw [applyTx_eq_hit m tx rid rest timeline hids hl]
      exact keysSorted_updateTL m rid _ h

theorem init_foldl_inv (lg : String) (cap : ℚ) :
    ∀ (rosters : List Roster) (m : List (ℕ × Timeline)),
      keysSorted m →
      (∀ kv ∈ m, kv.2.rosterId = kv.1 ∧ kv.2.points = [⟨0, 0, cap, 0⟩]) →
      keysSorted (rosters.foldl
        (fun m r => insertTimeline m r.roster_id (initTimeline lg cap r)) m) ∧
      ∀ kv ∈ rosters.foldl
          (fun m r => insertTimeline m r.roster_id (initTimeline lg cap r)) m,
        kv.2.rosterId = kv.1 ∧ kv.2.points = [⟨0, 0, cap, 0⟩] := by
  intro rosters
  induction rosters with
  | nil => intro m h1 h2; exact ⟨h1, h2⟩
  | cons r rest ih =>
    intro m h1 h2
    rw [List.foldl_cons]
    refine ih _ (keysSorted_insertTimeline m _ _ h1) ?_
    intro kv hkv
    rcases mem_insertTimeline m _ _ kv hkv with rfl | h
    · exact ⟨rfl, rfl⟩
    · exact h2 kv h

theorem fold_scanl_inv (cap : ℚ) :
    ∀ (txl : List Tx) (m : List (ℕ × Timeline)) (processed : List Tx),
      keysSorted m →
      (∀ kv ∈ m, kv.2.rosterId = kv.1 ∧
        kv.2.points.head? = some ⟨0, 0, cap, 0⟩ ∧
        kv.2.points.map (·.fab) =
          List.scanl (fun v tx => v - txBid tx) cap
            (processed.filter (attributedTo kv.1))) →
      keysSorted (txl.foldl applyTx m) ∧
      ∀ kv ∈ txl.foldl applyTx m, kv.2.rosterId = kv.1 ∧
        kv.2.points.head? = some ⟨0, 0, cap, 0⟩ ∧
        kv.2.points.map (·.fab) =
          List.scanl (fun v tx => v - txBid tx) cap
            ((processed ++ txl).filter (attributedTo kv.1)) := by
  intro txl
  induction txl with
  | nil =>
    intro m processed h1 h2
    rw [List.foldl_nil]
    refine ⟨h1, ?_⟩
    intro kv hkv
    rw [List.append_nil]
    exact h2 kv hkv
  | cons tx rest ih =>
    intro m processed h1 h2
    rw [List.foldl_cons]
    have key : keysSorted (applyTx m tx) ∧
        ∀ kv ∈ applyTx m tx, kv.2.rosterId = kv.1 ∧
          kv.2.points.head? = some ⟨0, 0, cap, 0⟩ ∧
          kv.2.points.map (·.fab) =
            List.scanl (fun v tx => v - txBid tx) cap
              ((processed ++ [tx]).filter (attributedTo kv.1)) := by
      refine ⟨applyTx_keysSorted m tx h1, ?_⟩
      cases hids : tx.roster_ids with
      | nil =>
        rw [applyTx_eq_nil m tx hids]
        intro kv hkv
        obtain ⟨ha, hb, hc⟩ := h2 kv hkv
        refine ⟨ha, hb, ?_⟩
        rw [List.filter_append]
        have hattr : attributedTo kv.1 tx = false := by
          unfold attributedTo
          rw [hids]
          rfl
        simp [hattr, hc]
      | cons rid rest' =>
        cases hl : lookupTL m rid with
        | none =>
          rw [applyTx_eq_miss m tx rid rest' hids hl]
          intro kv hkv
          obtain ⟨ha, hb, hc⟩ := h2 kv hkv
          refine ⟨ha, hb, ?_⟩
          rw [List.filter_append]
          have hne : kv.1 ≠ rid := lookupTL_none m rid hl kv hkv
          have hattr : attributedTo kv.1 tx = false := by
            unfold attributedTo
            rw [hids]
            simp [List.head?]
            exact fun h => hne h.symm
          simp [hattr, hc]
        | some timeline =>
          rw [applyTx_eq_hit m tx rid rest' timeline hids hl]
          intro kv hkv
          rcases mem_updateTL m rid _ h1 kv hkv with ⟨hmem, hne⟩ | rfl
          · obtain ⟨ha, hb, hc⟩ := h2 kv hmem
            refine ⟨ha, hb, ?_⟩
            rw [List.filter_append]
            have hattr : attributedTo kv.1 tx = false := by
              unfold attributedTo
              rw [hids]
              simp [List.head?]
              exact fun h => hne h.symm
            simp [hattr, hc]
          · obtain ⟨ha, hb, hc⟩ := h2 (rid, timeline) (lookupTL_mem m rid timeline hl)
            have hptsne : timeline.points ≠ [] := by
              intro hnil
              have := hc
              rw [hnil] at this
              exact scanl_ne_nil _ cap _ this.symm
            refine ⟨ha, ?_, ?_⟩
            · show (timeline.points ++ [_]).head? = _
              rw [head?_append_of_ne_nil _ _ hptsne]
              exact hb
            · show (timeline.points ++ [txPoint tx _]).map (·.fab) = _
              rw [List.map_append, List.filter_append]
              have hattr : attributedTo rid tx = true := by
                unfold attributedTo
                rw [hids]
                simp
              have hlast : (timeline.points.getLastD dfltPoint).fab =
                  List.foldl (fun v tx => v - txBid tx) cap
                    (processed.filter (attributedTo rid)) := by
                rw [getLastD_fab, hc, scanl_getLastD]
              simp only [List.map_cons, List.map_nil, List.filter_cons, hattr,
                if_true, List.filter_nil]
              rw [hc, hlast]
              exact (scanl_concat _ _ _ _).symm
    have := ih (applyTx m tx) (processed ++ [tx]) key.1 key.2
    rw [List.append_assoc] at this
    simpa using this

theorem fillEliminatedWeek_preserves (rosters : List Roster) (t : Timeline) :
    (fillEliminatedWeek rosters t).points = t.points ∧
    (fillEliminatedWeek rosters t).rosterId = t.rosterId := by
  unfold fillEliminatedWeek
  split
  · split
    · split
      · split
        · exact ⟨rfl, rfl⟩
        · exact ⟨rfl, rfl⟩
      · exact ⟨rfl, rfl⟩
    · exact ⟨rfl, rfl⟩
  · exact ⟨rfl, rfl⟩

/-- C1: every reconstructed timeline starts at the single origin point
`{week 0, weekProgress 0, value cap, timestamp 0}`, and its value
sequence is exactly the running left fold `cap, cap - b₁, cap - b₂, …`
over the bids of the sorted complete waiver transactions attributed to
that roster: each consecutive pair of points differs by the producing
event's bid. -/
theorem computeFABTimeline_origin_and_fold (lg : String) (cap : Option ℚ)
    (rosters : List Roster) (txs : List Tx) :
    ∀ tl ∈ computeFABTimeline lg cap rosters txs,
      tl.points.head? = some ⟨0, 0, cap.getD 0, 0⟩ ∧
      tl.points.map (·.fab) =
        List.scanl (fun v tx => v - txBid tx) (cap.getD 0)
          ((sortedTxOf txs).filter (attributedTo tl.rosterId)) := by
  intro tl htl
  unfold computeFABTimeline at htl
  obtain ⟨kv, hkv, rfl⟩ := List.mem_map.mp htl
  have hinit := init_foldl_inv lg (cap.getD 0) rosters []
    List.Pairwise.nil (by intro kv h; cases h)
  have hfold := fold_scanl_inv (cap.getD 0) (sortedTxOf txs) _ [] hinit.1 (by
    intro kv' hkv'
    obtain ⟨ha, hb⟩ := hinit.2 kv' hkv'
    refine ⟨ha, ?_, ?_⟩
    · rw [hb]; rfl
    · rw [hb]; rfl)
  obtain ⟨hrid, hhead, hmap⟩ := hfold.2 kv (by simpa using hkv)
  obtain ⟨hp, hr⟩ := fillEliminatedWeek_preserves rosters kv.2
  rw [hp, hr, hrid]
  refine ⟨hhead, ?_⟩
  simpa using hmap

theorem computeFABTimeline_origin_and_fold_witness :
    (⟨1, "L", false, none, 985, [⟨0, 0, 1000, 0⟩]⟩ : Timeline) ∈
      computeFABTimeline "L" (some 1000) [⟨1, some 15, none⟩] [] ∧
    ([⟨0, 0, 1000, 0⟩] : List TPoint).head? = some ⟨0, 0, 1000, 0⟩ ∧
    ([⟨0, 0, 1000, 0⟩] : List TPoint).map (·.fab) =
      List.scanl (fun v tx => v - txBid tx) 1000
        ((sortedTxOf []).filter (attributedTo 1)) := by
  have hmem : (⟨1, "L", false, none, 985, [⟨0, 0, 1000, 0⟩]⟩ : Timeline) ∈
      computeFABTimeline "L" (some 1000) [⟨1, some 15, none⟩] [] := by
    norm_num [computeFABTimeline, sortedTxOf, stableSortBy, List.enum,
      List.insertionSort, insertTimeline, initTimeline, fillEliminatedWeek]
  have h := computeFABTimeline_origin_and_fold "L" (some 1000)
    [⟨1, some 15, none⟩] [] _ hmem
  exact ⟨hmem, h.1, h.2⟩

/-! ## C2: time ordering of reconstructed timelines -/

theorem weekDuration_pos : (0 : ℚ) < weekDurationMs := by
  norm_num [weekDurationMs]

theorem wc_basic (tx : Tx) (h : WeekConsistent tx) :
    0 ≤ tx.week ∧
    txTimestamp tx = tx.status_updated.getD 0 ∧
    0 < txTimestamp tx ∧
    seasonStartMs + (tx.week - 1) * weekDurationMs ≤ txTimestamp tx ∧
    txTimestamp tx < seasonStartMs + tx.week * weekDurationMs ∧
    txWeekProgress tx =
      (txTimestamp tx - (seasonStartMs + (tx.week - 1) * weekDurationMs)) /
        weekDurationMs ∧
    0 ≤ txWeekProgress tx ∧ txWeekProgress tx < 1 := by
  obtain ⟨⟨n, hn⟩, v, hsu, hlo, hhi⟩ := h
  have hwd := weekDuration_pos
  have hwk : 0 ≤ tx.week := by rw [hn]; positivity
  have hws : 0 < seasonStartMs + (tx.week - 1) * weekDurationMs := by
    have h1 : (0 : ℚ) < seasonStartMs - weekDurationMs := by
      norm_num [seasonStartMs, weekDurationMs]
    nlinarith
  have hv0 : v ≠ 0 := ne_of_gt (lt_of_lt_of_le hws hlo)
  have hts : txTimestamp tx = v := by
    unfold txTimestamp jsOrQ
    rw [hsu]
    simp [hv0]
  have htsD : tx.status_updated.getD 0 = v := by rw [hsu]; rfl
  have hraw0 : 0 ≤ (v - (seasonStartMs + (tx.week - 1) * weekDurationMs)) /
      weekDurationMs := div_nonneg (by linarith) (le_of_lt hwd)
  have hraw1 : (v - (seasonStartMs + (tx.week - 1) * weekDurationMs)) /
      weekDurationMs < 1 := by
    rw [div_lt_one hwd]
    nlinarith
  have hprog : txWeekProgress tx =
      (v - (seasonStartMs + (tx.week - 1) * weekDurationMs)) / weekDurationMs := by
    simp only [txWeekProgress]
    rw [hts, min_eq_right (le_of_lt hraw1), max_eq_right hraw0]
  rw [hts, htsD, hprog]
  exact ⟨hwk, rfl, lt_of_lt_of_le hws hlo, hlo, by nlinarith, rfl, hraw0, hraw1⟩

theorem wc_key_le_timeOrdered (tx tx' : Tx) (h : WeekConsistent tx)
    (h' : WeekConsistent tx') (hle : txSortKey tx ≤ txSortKey tx') (f f' : ℚ) :
    timeOrdered (txPoint tx f) (txPoint tx' f') := by
  obtain ⟨hw, htsD, hts0, hlo, hhi, hprog, hp0, hp1⟩ := wc_basic tx h
  obtain ⟨hw', htsD', hts0', hlo', hhi', hprog', hp0', hp1'⟩ := wc_basic tx' h'
  have hwd := weekDuration_pos
  unfold txSortKey at hle
  rw [Prod.Lex.le_iff] at hle
  dsimp only at hle
  unfold timeOrdered txPoint
  dsimp only
  rcases hle with hlt | ⟨heq, hvle⟩
  · have hcast : tx.week + 1 ≤ tx'.week := by
      obtain ⟨n, hn⟩ := h.1
      obtain ⟨n', hn'⟩ := h'.1
      rw [hn, hn'] at hlt ⊢
      have h1 : n < n' := by exact_mod_cast hlt
      have h2 : n + 1 ≤ n' := h1
      exact_mod_cast h2
    constructor
    · linarith
    · have h2 : seasonStartMs + tx.week * weekDurationMs ≤
          seasonStartMs + (tx'.week - 1) * weekDurationMs := by nlinarith
      linarith
  · have htseq : txTimestamp tx ≤ txTimestamp tx' := by
      rw [htsD, htsD']
      exact hvle
    constructor
    · have hd : (txTimestamp tx -
            (seasonStartMs + (tx.week - 1) * weekDurationMs)) / weekDurationMs ≤
          (txTimestamp tx' -
            (seasonStartMs + (tx'.week - 1) * weekDurationMs)) / weekDurationMs := by
        rw [heq] at hprog ⊢
        exact (div_le_div_iff_of_pos_right hwd).mpr (by linarith)
      rw [hprog, hprog', heq] at *
      linarith
    · exact htseq

theorem wc_origin_le (tx : Tx) (h : WeekConsistent tx) (f c : ℚ) :
    timeOrdered ⟨0, 0, c, 0⟩ (txPoint tx f) := by
  obtain ⟨hw, _, hts0, _, _, _, hp0, _⟩ := wc_basic tx h
  unfold timeOrdered txPoint
  dsimp only
  exact ⟨by linarith, le_of_lt hts0⟩

theorem getLast?_eq_getLastD {α : Type} (l : List α) (d : α) (h : l ≠ []) :
    l.getLast? = some (l.getLastD d) := by
  have hs : l.getLast?.isSome := List.getLast?_isSome.mpr h
  obtain ⟨x, hx⟩ := Option.isSome_iff_exists.mp hs
  rw [List.getLastD_eq_getLast?, hx]
  rfl

theorem fold_chain_inv :
    ∀ (txl : List Tx) (m : List (ℕ × Timeline)),
      keysSorted m →
      txl.Pairwise (fun a b => txSortKey a ≤ txSortKey b) →
      (∀ tx ∈ txl, WeekConsistent tx) →
      (∀ kv ∈ m, kv.2.points ≠ [] ∧ kv.2.points.Chain' timeOrdered ∧
        ∀ tx ∈ txl, ∀ f : ℚ,
          timeOrdered (kv.2.points.getLastD dfltPoint) (txPoint tx f)) →
      ∀ kv ∈ txl.foldl applyTx m,
        kv.2.points ≠ [] ∧ kv.2.points.Chain' timeOrdered := by
  intro txl
  induction txl with
  | nil =>
    intro m _ _ _ hinv kv hkv
    obtain ⟨h1, h2, _⟩ := hinv kv hkv
    exact ⟨h1, h2⟩
  | cons tx rest ih =>
    intro m hks hsorted hgood hinv
    rw [List.foldl_cons]
    have hsorted' := List.pairwise_cons.mp hsorted
    have hgoodtx : WeekConsistent tx := hgood tx (List.mem_cons_self tx rest)
    have hgood' : ∀ tx' ∈ rest, WeekConsistent tx' :=
      fun tx' h => hgood tx' (List.mem_cons_of_mem tx h)
    refine ih (applyTx m tx) (applyTx_keysSorted m tx hks) hsorted'.2 hgood' ?_
    cases hids : tx.roster_ids with
    | nil =>
      rw [applyTx_eq_nil m tx hids]
      intro kv hkv
      obtain ⟨h1, h2, h3⟩ := hinv kv hkv
      exact ⟨h1, h2, fun tx' h f => h3 tx' (List.mem_cons_of_mem tx h) f⟩
    | cons rid rest' =>
      cases hl : lookupTL m rid with
      | none =>
        rw [applyTx_eq_miss m tx rid rest' hids hl]
        intro kv hkv
        obtain ⟨h1, h2, h3⟩ := hinv kv hkv
        exact ⟨h1, h2, fun tx' h f => h3 tx' (List.mem_cons_of_mem tx h) f⟩
      | some timeline =>
        rw [applyTx_eq_hit m tx rid rest' timeline hids hl]
        intro kv hkv
        rcases mem_updateTL m rid _ hks kv hkv with ⟨hmem, _⟩ | rfl
        · obtain ⟨h1, h2, h3⟩ := hinv kv hmem
          exact ⟨h1, h2, fun tx' h f => h3 tx' (List.mem_cons_of_mem tx h) f⟩
        · obtain ⟨h1, h2, h3⟩ := hinv (rid, timeline) (lookupTL_mem m rid timeline hl)
          have hlink := h3 tx (List.mem_cons_self tx rest)
          refine ⟨by simp, ?_, ?_⟩
          · show List.Chain' timeOrdered (timeline.points ++ [txPoint tx _])
            rw [List.chain'_append]
            refine ⟨h2, List.chain'_singleton _, ?_⟩
            intro x hx y hy
            rw [getLast?_eq_getLastD timeline.points dfltPoint h1] at hx
            have hx' : timeline.points.getLastD dfltPoint = x := by simpa using hx
            have hy' : txPoint tx
                ((timeline.points.getLastD dfltPoint).fab - txBid tx) = y := by
              simpa using hy
            rw [← hx', ← hy']
            exact hlink _
          · intro tx' htx' f
            show timeOrdered
              ((timeline.points ++ [txPoint tx _]).getLastD dfltPoint) (txPoint tx' f)
            rw [List.getLastD_concat]
            exact wc_key_le_timeOrdered tx tx' hgoodtx (hgood' tx' htx')
              (hsorted'.1 tx' htx') _ f

/-- C2 amended: provided every event carries a present `status_updated`
timestamp lying inside its (natural-numbered) week's window — the shape
the upstream fetcher produces — every reconstructed Timeline is
non-decreasing in time: both `week + weekProgress` and the timestamp
advance between consecutive points. -/
theorem computeFABTimeline_time_monotone (lg : String) (cap : Option ℚ)
    (rosters : List Roster) (txs : List Tx)
    (hwc : ∀ tx ∈ txs, WeekConsistent tx) :
    ∀ tl ∈ computeFABTimeline lg cap rosters txs,
      tl.points.Chain' timeOrdered := by
  intro tl htl
  unfold computeFABTimeline at htl
  obtain ⟨kv, hkv, rfl⟩ := List.mem_map.mp htl
  rw [(fillEliminatedWeek_preserves rosters kv.2).1]
  have hsorted : (sortedTxOf txs).Pairwise (fun a b => txSortKey a ≤ txSortKey b) :=
    stableSortBy_pairwise txSortKey _
  have hgood : ∀ tx ∈ sortedTxOf txs, WeekConsistent tx := by
    intro tx htx
    have hmem : tx ∈ txs := by
      have hperm := stableSortBy_perm txSortKey
        (txs.filter (fun tx => tx.status == "complete" && tx.type == "waiver"))
      exact (List.mem_filter.mp (hperm.mem_iff.mp htx)).1
    exact hwc tx hmem
  have hinit := init_foldl_inv lg (cap.getD 0) rosters []
    List.Pairwise.nil (by intro kv h; cases h)
  have hfold := fold_chain_inv (sortedTxOf txs) _ hinit.1 hsorted hgood (by
    intro kv' hkv'
    obtain ⟨_, hpts⟩ := hinit.2 kv' hkv'
    refine ⟨by rw [hpts]; simp, by rw [hpts]; exact List.chain'_singleton _, ?_⟩
    intro tx htx f
    rw [hpts]
    exact wc_origin_le tx (hgood tx htx) f (cap.getD 0))
  exact (hfold kv (by simpa using hkv)).2

/-- C2 counterexample: with two same-week complete waiver transactions
where the first lacks `status_updated` (so it sorts with key 0 but
timestamps via the `created` fallback as 100) and the second has
`status_updated = 50`, the reconstructed timeline's timestamps are
`[0, 100, 50]` — not non-decreasing. -/
theorem computeFABTimeline_time_order_counterexample :
    ¬ (∀ tl ∈ computeFABTimeline "L" (some 1000) [⟨1, some 15, none⟩]
          [⟨1, "complete", "waiver", none, some 100, [1], some 10⟩,
           ⟨1, "complete", "waiver", some 50, none, [1], some 5⟩],
        tl.points.Chain' timeOrdered) := by
  intro h
  have hout : computeFABTimeline "L" (some 1000) [⟨1, some 15, none⟩]
      [⟨1, "complete", "waiver", none, some 100, [1], some 10⟩,
       ⟨1, "complete", "waiver", some 50, none, [1], some 5⟩] =
      [⟨1, "L", false, none, 985,
        [⟨0, 0, 1000, 0⟩, ⟨1, 0, 990, 100⟩, ⟨1, 0, 985, 50⟩]⟩] := by
    norm_num [computeFABTimeline, sortedTxOf, stableSortBy, List.enum,
      List.enumFrom, List.insertionSort, List.orderedInsert, sRel, txSortKey,
      applyTx, lookupTL, updateTL, insertTimeline, initTimeline,
      fillEliminatedWeek, txPoint, txTimestamp, txBid, txWeekProgress, jsOrQ,
      seasonStartMs, weekDurationMs, Prod.Lex.lt_iff, Prod.Lex.le_iff]
  have hch := h _ (by rw [hout]; exact List.mem_singleton_self _)
  have hch1 := (List.chain'_cons.mp hch).2
  have hch2 := (List.chain'_cons.mp hch1).1
  have := hch2.2
  norm_num at this

theorem computeFABTimeline_time_monotone_witness :
    (⟨1, "L", false, none, 985,
        [⟨0, 0, 1000, 0⟩, ⟨1, 1 / 604800, 990, 1694649601000⟩]⟩ : Timeline) ∈
      computeFABTimeline "L" (some 1000) [⟨1, some 15, none⟩]
        [⟨1, "complete", "waiver", some 1694649601000, none, [1], some 10⟩] ∧
    List.Chain' timeOrdered
      [(⟨0, 0, 1000, 0⟩ : TPoint), ⟨1, 1 / 604800, 990, 1694649601000⟩] := by
  have hwc : ∀ tx ∈ [(⟨1, "complete", "waiver", some 1694649601000, none, [1],
      some 10⟩ : Tx)], WeekConsistent tx := by
    intro tx htx
    rw [List.mem_singleton.mp htx]
    exact ⟨⟨1, by norm_num⟩, 1694649601000, rfl,
      by norm_num [seasonStartMs, weekDurationMs],
      by norm_num [seasonStartMs, weekDurationMs]⟩
  have hmem : (⟨1, "L", false, none, 985,
      [⟨0, 0, 1000, 0⟩, ⟨1, 1 / 604800, 990, 1694649601000⟩]⟩ : Timeline) ∈
      computeFABTimeline "L" (some 1000) [⟨1, some 15, none⟩]
        [⟨1, "complete", "waiver", some 1694649601000, none, [1], some 10⟩] := by
    norm_num [computeFABTimeline, sortedTxOf, stableSortBy, List.enum,
      List.enumFrom, List.insertionSort, List.orderedInsert, sRel, txSortKey,
      applyTx, lookupTL, updateTL, insertTimeline, initTimeline,
      fillEliminatedWeek, txPoint, txTimestamp, txBid, txWeekProgress, jsOrQ,
      seasonStartMs, weekDurationMs]
  have h := computeFABTimeline_time_monotone "L" (some 1000)
    [⟨1, some 15, none⟩]
    [⟨1, "complete", "waiver", some 1694649601000, none, [1], some 10⟩] hwc _ hmem
  exact ⟨hmem, h⟩

end FabChart
